import Mathlib

/-!
Verification of the go-ed2k package: a streaming ed2k (two-level MD4) checksum
engine.  The repository contains two variants of the same engine:

* a synchronous variant whose Write hands each completed chunk to an inline
  md4sum call that appends the chunk digest to an in-memory hash list, and
* a concurrent variant whose Write submits each completed chunk to a
  background hash loop (one goroutine per chunk, with the loop retiring
  results in submission order).

The underlying 128-bit block digest (MD4) is an external collaborator; the
whole development is parametrised over an abstract block digest
H : List Nat -> List Nat.  Go's hash.Hash.Sum(list) appends the digest of the
written data to list, which is what md4sum below does.

Bytes are modelled as Nat; none of the engine logic inspects byte values.
-/

namespace Ed2k

/-- Size of the ed2k checksum in bytes (md4.Size in the source). -/
def Size : Nat := 16

/-- The chunk size in bytes, from the source: const BlockSize = 9728000. -/
def BlockSize : Nat := 9728000

/-- Shared semantics of the source functions digest.md4sum (synchronous
variant) and md4Sum (concurrent variant): reset an md4 state, write data,
and Sum(list), where Go's hash.Sum appends the 16-byte digest of data to
list.  H is the abstract block digest. -/
def md4sum (H : List Nat → List Nat) (data list : List Nat) : List Nat :=
  list ++ H data

/-- Number of bytes one iteration of the Write loop copies into the chunk
buffer: count := copy(currentChunk[len:cap], p[i:]), which transfers
min(cap - len(currentChunk), len(remaining input)) bytes, with cap =
BlockSize. -/
def copyCount (chunk p : List Nat) : Nat :=
  min (BlockSize - chunk.length) p.length

namespace Sync

/-- Engine state of the synchronous variant (struct digest, first file):
currentChunk is the pending chunk buffer (capacity BlockSize), hashList the
concatenated digests of the chunks handed off so far, endWithNullChunk the
boundary mode chosen at construction.  The md4 field is omitted: md4sum
resets it before every use, so it carries no observable state. -/
structure Digest where
  currentChunk : List Nat
  hashList : List Nat
  endWithNullChunk : Bool

/-- The digest.Reset method of the synchronous variant: empty chunk buffer
and hash list; the boundary mode is untouched. -/
def Reset (d : Digest) : Digest :=
  { d with currentChunk := [], hashList := [] }

/-- The New constructor: records the boundary mode and Resets. -/
def New (endWithNullChunk : Bool) : Digest :=
  Reset { currentChunk := [], hashList := [], endWithNullChunk := endWithNullChunk }

/-- The loop of digest.Write of the synchronous variant.  Each iteration
copies copyCount bytes into currentChunk; if currentChunk is then exactly
full and input remains, the chunk digest is appended to hashList (the
md4sum call) and the chunk buffer emptied; a full chunk with no input
remaining is left pending (the wait-one-byte rule).  The two ifs share one
condition and together are the body of the Go if statement.  The
BlockSize < chunk.length guard is unreachable from states the code can
build (the Go buffer capacity is BlockSize); it only makes the recursion
total. -/
def writeAux (H : List Nat → List Nat) (p chunk hl : List Nat) : List Nat × List Nat :=
  if hp : p = [] then (chunk, hl)
  else if hover : BlockSize < chunk.length then (chunk, hl)
  else
    writeAux H (p.drop (copyCount chunk p))
      (if (chunk ++ p.take (copyCount chunk p)).length = BlockSize ∧
          p.drop (copyCount chunk p) ≠ [] then []
       else chunk ++ p.take (copyCount chunk p))
      (if (chunk ++ p.take (copyCount chunk p)).length = BlockSize ∧
          p.drop (copyCount chunk p) ≠ [] then
        hl ++ H (chunk ++ p.take (copyCount chunk p))
       else hl)
termination_by 2 * p.length + chunk.length
decreasing_by
  have hB : BlockSize = 9728000 := rfl
  split <;>
    simp_all only [copyCount, List.length_drop, List.length_nil, List.length_append,
      List.length_take, ne_eq, List.drop_eq_nil_iff, not_and, not_le, not_not,
      ← List.length_eq_zero] <;>
    omega

/-- The digest.Write method of the synchronous variant.  Go's Write returns
(len p, nil): all input is always consumed; only the state change matters
here. -/
def Write (H : List Nat → List Nat) (d : Digest) (p : List Nat) : Digest :=
  { currentChunk := (writeAux H p d.currentChunk d.hashList).1,
    hashList := (writeAux H p d.currentChunk d.hashList).2,
    endWithNullChunk := d.endWithNullChunk }

/-- A sequence of Write calls. -/
def Writes (H : List Nat → List Nat) (d : Digest) (ps : List (List Nat)) : Digest :=
  ps.foldl (Write H) d

/-- The digest.Sum method of the synchronous variant.  The Go method copies
the receiver and mutates only the copy; this is the returned byte slice.
Control flow of the source: (1) legacy mode with an exactly full pending
chunk folds the chunk digest in and truncates the chunk to a null chunk,
then falls through; (2) otherwise an empty hash list is the single-chunk
fast path, returning the digest of the raw chunk - note the Go code drops
p here; (3) the fall-through appends a digest of the pending chunk when in
legacy mode or when the chunk is non-empty, and finally returns
md4.Sum(p) of the hash list, which is p with the digest of hashList
appended. -/
def Sum (H : List Nat → List Nat) (d : Digest) (p : List Nat) : List Nat :=
  if d.endWithNullChunk = true ∧ d.currentChunk.length = BlockSize then
    md4sum H
      (if d.endWithNullChunk = true ∨ ([] : List Nat) ≠ [] then
        md4sum H [] (md4sum H d.currentChunk d.hashList)
      else md4sum H d.currentChunk d.hashList)
      p
  else if d.hashList = [] then
    md4sum H d.currentChunk []
  else
    md4sum H
      (if d.endWithNullChunk = true ∨ d.currentChunk ≠ [] then
        md4sum H d.currentChunk d.hashList
      else d.hashList)
      p

/-- The digest.Sum call together with the engine state the caller observes
afterwards.  The source copies the receiver (d := new(digest); *d = *d0)
and mutates only the copy, so the receiver is unchanged after the call. -/
def SumStateful (H : List Nat → List Nat) (d : Digest) (p : List Nat) :
    List Nat × Digest :=
  (Sum H d p, d)

end Sync

namespace Conc

/-- Engine state of the concurrent variant (struct digest, second file).
The channels of the source are replaced by the list of chunk buffers handed
to md4SumAsync so far, in submission order; the hash loop model below
(SchedStep) shows that the loop delivers exactly the concatenation of their
digests in that order. -/
structure Digest where
  currentChunk : List Nat
  submitted : List (List Nat)
  endWithNullChunk : Bool

/-- The digest.Reset method of the concurrent variant: the old hash loop is
told to quit (in-flight results are drained and discarded) and a fresh loop
with an empty hash list is started; currentChunk is emptied and the
boundary mode is untouched. -/
def Reset (d : Digest) : Digest :=
  { d with currentChunk := [], submitted := [] }

/-- The New constructor of the concurrent variant. -/
def New (endWithNullChunk : Bool) : Digest :=
  Reset { currentChunk := [], submitted := [], endWithNullChunk := endWithNullChunk }

/-- The loop of digest.Write of the concurrent variant: identical copying
logic to the synchronous variant, but a completed chunk is sent to the hash
loop (d.addHash <- md4SumAsync(currentChunk)) and a fresh buffer allocated,
rather than digesting inline. -/
def writeAux (p chunk : List Nat) (chunks : List (List Nat)) :
    List Nat × List (List Nat) :=
  if hp : p = [] then (chunk, chunks)
  else if hover : BlockSize < chunk.length then (chunk, chunks)
  else
    writeAux (p.drop (copyCount chunk p))
      (if (chunk ++ p.take (copyCount chunk p)).length = BlockSize ∧
          p.drop (copyCount chunk p) ≠ [] then []
       else chunk ++ p.take (copyCount chunk p))
      (if (chunk ++ p.take (copyCount chunk p)).length = BlockSize ∧
          p.drop (copyCount chunk p) ≠ [] then
        chunks ++ [chunk ++ p.take (copyCount chunk p)]
       else chunks)
termination_by 2 * p.length + chunk.length
decreasing_by
  have hB : BlockSize = 9728000 := rfl
  split <;>
    simp_all only [copyCount, List.length_drop, List.length_nil, List.length_append,
      List.length_take, ne_eq, List.drop_eq_nil_iff, not_and, not_le, not_not,
      ← List.length_eq_zero] <;>
    omega

/-- The digest.Write method of the concurrent variant. -/
def Write (d : Digest) (p : List Nat) : Digest :=
  { currentChunk := (writeAux p d.currentChunk d.submitted).1,
    submitted := (writeAux p d.currentChunk d.submitted).2,
    endWithNullChunk := d.endWithNullChunk }

/-- A sequence of Write calls. -/
def Writes (d : Digest) (ps : List (List Nat)) : Digest :=
  ps.foldl Write d

/-- The digest.Sum method of the concurrent variant.  It snapshots
currentChunk into a local, asks the hash loop for the hash list collected
so far (waiting for every in-flight chunk; by the hash loop model this is
the concatenation of the submitted chunks' digests in submission order),
and then runs the same finalization as the synchronous variant on the
locals.  As in the synchronous variant the single-chunk fast path drops p. -/
def Sum (H : List Nat → List Nat) (d : Digest) (p : List Nat) : List Nat :=
  if d.endWithNullChunk = true ∧ d.currentChunk.length = BlockSize then
    md4sum H
      (if d.endWithNullChunk = true ∨ ([] : List Nat) ≠ [] then
        md4sum H [] (md4sum H d.currentChunk ((d.submitted.map H).flatten))
      else md4sum H d.currentChunk ((d.submitted.map H).flatten))
      p
  else if (d.submitted.map H).flatten = [] then
    md4sum H d.currentChunk []
  else
    md4sum H
      (if d.endWithNullChunk = true ∨ d.currentChunk ≠ [] then
        md4sum H d.currentChunk ((d.submitted.map H).flatten)
      else (d.submitted.map H).flatten)
      p

/-- The digest.Sum call together with the engine state the caller observes
afterwards.  The source reads currentChunk into a local and receives a
copied snapshot of the hash list from the loop; no engine field is written,
so the receiver is unchanged after the call. -/
def SumStateful (H : List Nat → List Nat) (d : Digest) (p : List Nat) :
    List Nat × Digest :=
  (Sum H d p, d)

end Conc

/-- State of the hashLoop goroutine of the concurrent variant: hashList is
the list of digest bytes retired so far, runningHashes the digests of the
chunks still in flight (head = oldest submission; in the source each entry
is the channel on which that chunk's digest will arrive), and submitted is
the ghost history of every digest value ever accepted from addHash, in
submission order. -/
structure SchedState where
  hashList : List Nat
  runningHashes : List (List Nat)
  submitted : List (List Nat)

/-- Events of the hashLoop select statement that change its state. -/
inductive SchedLabel where
  | addHash (dg : List Nat)
  | nextHash

/-- One iteration of the hashLoop select statement, parametrised by
maxProcs = runtime.GOMAXPROCS(0).  addHash: a new chunk digest computation
is accepted and queued; the source sets the addHash channel to nil (so this
arm cannot fire) when len(runningHashes) > 0 and len(runningHashes) >=
2*maxProcs, which is the side condition here.  nextHash: the loop receives
the digest of the OLDEST in-flight chunk (nextHash = runningHashes[0]; the
loop never selects on any other chunk's channel, so later chunks that
finish early simply wait) and appends it to hashList.  The interleaving of
the two labels is unconstrained, which covers every possible order of
completion of the individual digest goroutines. -/
inductive SchedStep (maxProcs : Nat) : SchedState → SchedLabel → SchedState → Prop where
  | add (s : SchedState) (dg : List Nat)
      (hcap : s.runningHashes.length = 0 ∨ s.runningHashes.length < 2 * maxProcs) :
      SchedStep maxProcs s (.addHash dg)
        ⟨s.hashList, s.runningHashes ++ [dg], s.submitted ++ [dg]⟩
  | next (hl dg : List Nat) (rest sub : List (List Nat)) :
      SchedStep maxProcs ⟨hl, dg :: rest, sub⟩ .nextHash ⟨hl ++ dg, rest, sub⟩

/-- States the hashLoop can reach from its start state (hashList and
runningHashes both start empty). -/
inductive SchedReach (maxProcs : Nat) : SchedState → Prop where
  | init : SchedReach maxProcs ⟨[], [], []⟩
  | step {s s' : SchedState} {l : SchedLabel} :
      SchedReach maxProcs s → SchedStep maxProcs s l s' → SchedReach maxProcs s'

/-- A tiny concrete block digest used by witnesses and counterexamples: the
digest of a buffer is the one-element list holding its length. -/
def lenHash (l : List Nat) : List Nat := [l.length]

/-- View of a concurrent engine state as a synchronous one: the hash list
is the concatenation of the digests of the submitted chunks. -/
def toSync (H : List Nat → List Nat) (d : Conc.Digest) : Sync.Digest :=
  { currentChunk := d.currentChunk,
    hashList := (d.submitted.map H).flatten,
    endWithNullChunk := d.endWithNullChunk }

/-- Number of bytes left pending in the chunk buffer after n total bytes
have been written to a fresh engine: n mod BlockSize, except that a
positive exact multiple of BlockSize leaves a full pending chunk (the
wait-one-byte rule). -/
def pendingLen (n : Nat) : Nat :=
  if 0 < n ∧ n % BlockSize = 0 then BlockSize else n % BlockSize

/-! Step lemmas for the Write loops, one per control path. -/

theorem conc_writeAux_nil (chunk : List Nat) (cs : List (List Nat)) :
    Conc.writeAux [] chunk cs = (chunk, cs) := by
  rw [Conc.writeAux.eq_def]
  simp

theorem conc_writeAux_over (p chunk : List Nat) (cs : List (List Nat)) (hp : p ≠ [])
    (hover : BlockSize < chunk.length) :
    Conc.writeAux p chunk cs = (chunk, cs) := by
  rw [Conc.writeAux.eq_def, dif_neg hp, dif_pos hover]

theorem conc_writeAux_handoff (p chunk : List Nat) (cs : List (List Nat)) (hp : p ≠ [])
    (hover : ¬ BlockSize < chunk.length)
    (hfull : (chunk ++ p.take (copyCount chunk p)).length = BlockSize)
    (hrest : p.drop (copyCount chunk p) ≠ []) :
    Conc.writeAux p chunk cs =
      Conc.writeAux (p.drop (copyCount chunk p)) []
        (cs ++ [chunk ++ p.take (copyCount chunk p)]) := by
  rw [Conc.writeAux.eq_def, dif_neg hp, dif_neg hover,
    if_pos ⟨hfull, hrest⟩, if_pos ⟨hfull, hrest⟩]

theorem conc_writeAux_fill (p chunk : List Nat) (cs : List (List Nat)) (hp : p ≠ [])
    (hover : ¬ BlockSize < chunk.length)
    (hno : ¬ ((chunk ++ p.take (copyCount chunk p)).length = BlockSize ∧
      p.drop (copyCount chunk p) ≠ [])) :
    Conc.writeAux p chunk cs =
      Conc.writeAux (p.drop (copyCount chunk p)) (chunk ++ p.take (copyCount chunk p)) cs := by
  rw [Conc.writeAux.eq_def, dif_neg hp, dif_neg hover, if_neg hno, if_neg hno]

theorem sync_writeAux_nil (H : List Nat → List Nat) (chunk hl : List Nat) :
    Sync.writeAux H [] chunk hl = (chunk, hl) := by
  rw [Sync.writeAux.eq_def]
  simp

theorem sync_writeAux_over (H : List Nat → List Nat) (p chunk hl : List Nat) (hp : p ≠ [])
    (hover : BlockSize < chunk.length) :
    Sync.writeAux H p chunk hl = (chunk, hl) := by
  rw [Sync.writeAux.eq_def, dif_neg hp, dif_pos hover]

theorem sync_writeAux_handoff (H : List Nat → List Nat) (p chunk hl : List Nat) (hp : p ≠ [])
    (hover : ¬ BlockSize < chunk.length)
    (hfull : (chunk ++ p.take (copyCount chunk p)).length = BlockSize)
    (hrest : p.drop (copyCount chunk p) ≠ []) :
    Sync.writeAux H p chunk hl =
      Sync.writeAux H (p.drop (copyCount chunk p)) []
        (hl ++ H (chunk ++ p.take (copyCount chunk p))) := by
  rw [Sync.writeAux.eq_def, dif_neg hp, dif_neg hover,
    if_pos ⟨hfull, hrest⟩, if_pos ⟨hfull, hrest⟩]

theorem sync_writeAux_fill (H : List Nat → List Nat) (p chunk hl : List Nat) (hp : p ≠ [])
    (hover : ¬ BlockSize < chunk.length)
    (hno : ¬ ((chunk ++ p.take (copyCount chunk p)).length = BlockSize ∧
      p.drop (copyCount chunk p) ≠ [])) :
    Sync.writeAux H p chunk hl =
      Sync.writeAux H (p.drop (copyCount chunk p)) (chunk ++ p.take (copyCount chunk p)) hl := by
  rw [Sync.writeAux.eq_def, dif_neg hp, dif_neg hover, if_neg hno, if_neg hno]

/-- In the branch where the Write loop neither hands off nor overflows, the
iteration consumed all remaining input: the copy count is the full input
length, the input fits into the chunk, and nothing is left to process. -/
theorem fill_facts (p chunk : List Nat) (hover : ¬ BlockSize < chunk.length)
    (hno : ¬ ((chunk ++ p.take (copyCount chunk p)).length = BlockSize ∧
      p.drop (copyCount chunk p) ≠ [])) :
    copyCount chunk p = p.length ∧ p.take (copyCount chunk p) = p ∧
      p.drop (copyCount chunk p) = [] ∧ chunk.length + p.length ≤ BlockSize := by
  have hmin : copyCount chunk p = min (BlockSize - chunk.length) p.length := rfl
  have hc2 : copyCount chunk p ≤ p.length := Nat.min_le_right _ _
  have hc1 : copyCount chunk p ≤ BlockSize - chunk.length := Nat.min_le_left _ _
  have hcon : chunk.length ≤ BlockSize := Nat.le_of_not_lt hover
  rcases eq_or_ne (p.drop (copyCount chunk p)) [] with hdrop | hdrop
  · have hlen : p.length ≤ copyCount chunk p := List.drop_eq_nil_iff.mp hdrop
    have hcc : copyCount chunk p = p.length := Nat.le_antisymm hc2 hlen
    exact ⟨hcc, List.take_of_length_le hlen, hdrop, by omega⟩
  · exfalso
    apply hno
    refine ⟨?_, hdrop⟩
    have hlt : ¬ p.length ≤ copyCount chunk p :=
      fun h => hdrop (List.drop_eq_nil_iff.mpr h)
    rw [List.length_append, List.length_take]
    omega

/-- Writing at most BlockSize bytes into an empty chunk buffer just fills
the buffer: nothing is handed off, even when the buffer lands exactly
full. -/
theorem conc_writeAux_small (p : List Nat) (cs : List (List Nat))
    (h : p.length ≤ BlockSize) :
    Conc.writeAux p [] cs = (p, cs) := by
  rcases eq_or_ne p [] with hp | hp
  · subst hp
    exact conc_writeAux_nil _ _
  · have hover : ¬ BlockSize < List.length ([] : List Nat) := by simp
    have hcc : copyCount [] p = p.length := by
      simp only [copyCount, List.length_nil, Nat.sub_zero]
      omega
    have hno : ¬ ((([] : List Nat) ++ p.take (copyCount [] p)).length = BlockSize ∧
        p.drop (copyCount [] p) ≠ []) := by
      rintro ⟨-, hr⟩
      exact hr (by rw [hcc, List.drop_length])
    rw [conc_writeAux_fill p [] cs hp hover hno, hcc, List.take_length, List.drop_length,
      List.nil_append, conc_writeAux_nil]

theorem sync_writeAux_small (H : List Nat → List Nat) (p hl : List Nat)
    (h : p.length ≤ BlockSize) :
    Sync.writeAux H p [] hl = (p, hl) := by
  rcases eq_or_ne p [] with hp | hp
  · subst hp
    exact sync_writeAux_nil _ _ _
  · have hover : ¬ BlockSize < List.length ([] : List Nat) := by simp
    have hcc : copyCount [] p = p.length := by
      simp only [copyCount, List.length_nil, Nat.sub_zero]
      omega
    have hno : ¬ ((([] : List Nat) ++ p.take (copyCount [] p)).length = BlockSize ∧
        p.drop (copyCount [] p) ≠ []) := by
      rintro ⟨-, hr⟩
      exact hr (by rw [hcc, List.drop_length])
    rw [sync_writeAux_fill H p [] hl hp hover hno, hcc, List.take_length, List.drop_length,
      List.nil_append, sync_writeAux_nil]

/-- The synchronous Write loop simulates the concurrent one: starting from
a hash list that is the concatenation of the digests of the chunks
submitted so far, it ends in the state whose hash list is the concatenation
of the digests of all chunks submitted by the concurrent loop, with the
same chunk buffer. -/
theorem writeAux_sim (H : List Nat → List Nat) (p chunk : List Nat) (cs : List (List Nat)) :
    Sync.writeAux H p chunk ((cs.map H).flatten) =
      ((Conc.writeAux p chunk cs).1, (((Conc.writeAux p chunk cs).2).map H).flatten) := by
  induction p, chunk, cs using Conc.writeAux.induct with
  | case1 chunk cs =>
    rw [sync_writeAux_nil, conc_writeAux_nil]
  | case2 p chunk cs hp hover =>
    rw [sync_writeAux_over H p chunk _ hp hover, conc_writeAux_over p chunk cs hp hover]
  | case3 p chunk cs hp hover IH =>
    by_cases hcond : (chunk ++ p.take (copyCount chunk p)).length = BlockSize ∧
        p.drop (copyCount chunk p) ≠ []
    · rw [dif_pos hcond, dif_pos hcond] at IH
      rw [sync_writeAux_handoff H p chunk _ hp hover hcond.1 hcond.2,
        conc_writeAux_handoff p chunk cs hp hover hcond.1 hcond.2]
      have hflat : (((cs ++ [chunk ++ p.take (copyCount chunk p)]).map H).flatten) =
          ((cs.map H).flatten ++ H (chunk ++ p.take (copyCount chunk p))) := by
        simp
      rw [hflat] at IH
      exact IH
    · rw [dif_neg hcond, dif_neg hcond] at IH
      rw [sync_writeAux_fill H p chunk _ hp hover hcond,
        conc_writeAux_fill p chunk cs hp hover hcond]
      exact IH

/-- Accounting of one Write call of the concurrent variant, from any state
whose chunk buffer respects its capacity.  With m the bytes since the last
handoff plus the new input, the resulting buffer holds m mod BlockSize
bytes, except that a positive multiple of BlockSize leaves a full pending
buffer (the wait-one-byte rule); and no byte is lost: chunks are handed off
exactly in BlockSize units. -/
theorem conc_writeAux_spec (p chunk : List Nat) (cs : List (List Nat))
    (h : chunk.length ≤ BlockSize) :
    (Conc.writeAux p chunk cs).1.length =
        (if 0 < chunk.length + p.length ∧ (chunk.length + p.length) % BlockSize = 0
         then BlockSize else (chunk.length + p.length) % BlockSize) ∧
      BlockSize * (Conc.writeAux p chunk cs).2.length + (Conc.writeAux p chunk cs).1.length
        = BlockSize * cs.length + chunk.length + p.length := by
  revert h
  induction p, chunk, cs using Conc.writeAux.induct with
  | case1 chunk cs =>
    intro h
    rw [conc_writeAux_nil]
    refine ⟨?_, by simp⟩
    simp only [List.length_nil, Nat.add_zero, BlockSize] at h ⊢
    split_ifs <;> omega
  | case2 p chunk cs hp hover =>
    intro h
    exact absurd hover (Nat.not_lt.mpr h)
  | case3 p chunk cs hp hover IH =>
    intro h
    have hp1 : 0 < p.length := List.length_pos.mpr hp
    by_cases hcond : (chunk ++ p.take (copyCount chunk p)).length = BlockSize ∧
        p.drop (copyCount chunk p) ≠ []
    · rw [dif_pos hcond, dif_pos hcond] at IH
      have IH2 := IH (by simp)
      have hc2 : copyCount chunk p ≤ p.length := Nat.min_le_right _ _
      have hfl : chunk.length + copyCount chunk p = BlockSize := by
        have h1 := hcond.1
        rw [List.length_append, List.length_take] at h1
        omega
      have hdp : 0 < (p.drop (copyCount chunk p)).length := List.length_pos.mpr hcond.2
      rw [conc_writeAux_handoff p chunk cs hp hover hcond.1 hcond.2]
      constructor
      · rw [IH2.1]
        simp only [List.length_nil, List.length_drop, Nat.zero_add, BlockSize] at *
        split_ifs <;> omega
      · rw [IH2.2]
        simp only [List.length_nil, List.length_drop, List.length_append,
          List.length_singleton, BlockSize] at *
        omega
    · obtain ⟨hcc, htake, hdrop, hble⟩ := fill_facts p chunk hover hcond
      rw [conc_writeAux_fill p chunk cs hp hover hcond, hdrop, htake, conc_writeAux_nil]
      constructor
      · simp only [List.length_append, BlockSize] at *
        split_ifs <;> omega
      · simp only [List.length_append]
        omega

/-- One Write of a concatenation behaves like two consecutive Writes: the
loop of the concurrent variant is split-invariant. -/
theorem conc_writeAux_append (p chunk : List Nat) (cs : List (List Nat)) :
    ∀ b : List Nat, Conc.writeAux (p ++ b) chunk cs =
      Conc.writeAux b (Conc.writeAux p chunk cs).1 (Conc.writeAux p chunk cs).2 := by
  induction p, chunk, cs using Conc.writeAux.induct with
  | case1 chunk cs =>
    intro b
    rw [conc_writeAux_nil]
    simp
  | case2 p chunk cs hp hover =>
    intro b
    have hpb : p ++ b ≠ [] := fun hx => hp (List.append_eq_nil.mp hx).1
    rw [conc_writeAux_over p chunk cs hp hover,
      conc_writeAux_over (p ++ b) chunk cs hpb hover]
    rcases eq_or_ne b [] with hb | hb
    · rw [hb, conc_writeAux_nil]
    · rw [conc_writeAux_over b chunk cs hb hover]
  | case3 p chunk cs hp hover IH =>
    intro b
    have hpb : p ++ b ≠ [] := fun hx => hp (List.append_eq_nil.mp hx).1
    have hch : chunk.length ≤ BlockSize := Nat.le_of_not_lt hover
    have hmin : copyCount chunk p = min (BlockSize - chunk.length) p.length := rfl
    have hc2 : copyCount chunk p ≤ p.length := Nat.min_le_right _ _
    by_cases hcond : (chunk ++ p.take (copyCount chunk p)).length = BlockSize ∧
        p.drop (copyCount chunk p) ≠ []
    · rw [dif_pos hcond, dif_pos hcond] at IH
      have hfl : chunk.length + copyCount chunk p = BlockSize := by
        have h1 := hcond.1
        rw [List.length_append, List.length_take] at h1
        omega
      have hcpb : copyCount chunk (p ++ b) = copyCount chunk p := by
        simp only [copyCount, List.length_append]
        omega
      have htk : (p ++ b).take (copyCount chunk (p ++ b)) = p.take (copyCount chunk p) := by
        rw [hcpb]
        exact List.take_append_of_le_length hc2
      have hdr : (p ++ b).drop (copyCount chunk (p ++ b)) =
          p.drop (copyCount chunk p) ++ b := by
        rw [hcpb]
        exact List.drop_append_of_le_length hc2
      have hfull2 : (chunk ++ (p ++ b).take (copyCount chunk (p ++ b))).length = BlockSize := by
        rw [htk]
        exact hcond.1
      have hrest2 : (p ++ b).drop (copyCount chunk (p ++ b)) ≠ [] := by
        rw [hdr]
        exact fun hx => hcond.2 (List.append_eq_nil.mp hx).1
      rw [conc_writeAux_handoff p chunk cs hp hover hcond.1 hcond.2,
        conc_writeAux_handoff (p ++ b) chunk cs hpb hover hfull2 hrest2, htk, hdr]
      exact IH b
    · obtain ⟨hcc, htake, hdrop, hble⟩ := fill_facts p chunk hover hcond
      rw [conc_writeAux_fill p chunk cs hp hover hcond, hdrop, htake, conc_writeAux_nil]
      rcases eq_or_ne b [] with hb | hb
      · rw [hb, List.append_nil, conc_writeAux_nil,
          conc_writeAux_fill p chunk cs hp hover hcond, hdrop, htake, conc_writeAux_nil]
      · have hp1 : 0 < p.length := List.length_pos.mpr hp
        rcases eq_or_ne (chunk.length + p.length) BlockSize with hfullm | hltm
        · have hcpb : copyCount chunk (p ++ b) = p.length := by
            simp only [copyCount, List.length_append]
            omega
          have hfull2 : (chunk ++ (p ++ b).take (copyCount chunk (p ++ b))).length
              = BlockSize := by
            rw [hcpb, List.take_left, List.length_append]
            exact hfullm
          have hrest2 : (p ++ b).drop (copyCount chunk (p ++ b)) ≠ [] := by
            rw [hcpb, List.drop_left]
            exact hb
          have hover2 : ¬ BlockSize < (chunk ++ p).length := by
            rw [List.length_append]
            omega
          have hc0 : copyCount (chunk ++ p) b = 0 := by
            simp only [copyCount, List.length_append]
            omega
          have hfull3 : ((chunk ++ p) ++ b.take (copyCount (chunk ++ p) b)).length
              = BlockSize := by
            rw [hc0, List.take_zero, List.append_nil, List.length_append]
            exact hfullm
          have hrest3 : b.drop (copyCount (chunk ++ p) b) ≠ [] := by
            rw [hc0, List.drop_zero]
            exact hb
          rw [conc_writeAux_handoff (p ++ b) chunk cs hpb hover hfull2 hrest2,
            conc_writeAux_handoff b (chunk ++ p) cs hb hover2 hfull3 hrest3,
            hcpb, hc0, List.take_left, List.drop_left, List.take_zero, List.drop_zero,
            List.append_nil]
        · have hover2 : ¬ BlockSize < (chunk ++ p).length := by
            rw [List.length_append]
            omega
          have hcpb : copyCount chunk (p ++ b) = p.length + copyCount (chunk ++ p) b := by
            simp only [copyCount, List.length_append]
            omega
          have htake2 : (p ++ b).take (copyCount chunk (p ++ b)) =
              p ++ b.take (copyCount (chunk ++ p) b) := by
            rw [hcpb]
            exact List.take_append _
          have hdrop2 : (p ++ b).drop (copyCount chunk (p ++ b)) =
              b.drop (copyCount (chunk ++ p) b) := by
            rw [hcpb]
            exact List.drop_append _
          have hcondiff : ((chunk ++ (p ++ b).take (copyCount chunk (p ++ b))).length
                = BlockSize ∧ (p ++ b).drop (copyCount chunk (p ++ b)) ≠ []) ↔
              (((chunk ++ p) ++ b.take (copyCount (chunk ++ p) b)).length = BlockSize ∧
                b.drop (copyCount (chunk ++ p) b) ≠ []) := by
            rw [htake2, hdrop2, ← List.append_assoc]
          by_cases hcond2 : ((chunk ++ p) ++ b.take (copyCount (chunk ++ p) b)).length
              = BlockSize ∧ b.drop (copyCount (chunk ++ p) b) ≠ []
          · rw [conc_writeAux_handoff (p ++ b) chunk cs hpb hover (hcondiff.mpr hcond2).1
                (hcondiff.mpr hcond2).2,
              conc_writeAux_handoff b (chunk ++ p) cs hb hover2 hcond2.1 hcond2.2,
              htake2, hdrop2, ← List.append_assoc]
          · rw [conc_writeAux_fill (p ++ b) chunk cs hpb hover
                (fun hx => hcond2 (hcondiff.mp hx)),
              conc_writeAux_fill b (chunk ++ p) cs hb hover2 hcond2,
              htake2, hdrop2, ← List.append_assoc]

/-- Inductive invariant of the hashLoop: the retired hash list is always
the concatenation of the digests of a prefix of the submissions, the
in-flight queue is exactly the remaining suffix in submission order, and
(for a positive maxProcs) the in-flight queue never exceeds 2*maxProcs
entries. -/
theorem sched_invariant (maxProcs : Nat) (s : SchedState) (h : SchedReach maxProcs s) :
    (∃ k, k ≤ s.submitted.length ∧ s.hashList = (s.submitted.take k).flatten ∧
      s.runningHashes = s.submitted.drop k) ∧
    (0 < maxProcs → s.runningHashes.length ≤ 2 * maxProcs) := by
  induction h with
  | init => exact ⟨⟨0, by simp, by simp, by simp⟩, by simp⟩
  | step hr hstep IH =>
    rcases IH with ⟨⟨k, hk, hhl, hrun⟩, hcap⟩
    cases hstep with
    | add s dg hc =>
      refine ⟨⟨k, ?_, ?_, ?_⟩, ?_⟩
      · simp only [List.length_append, List.length_singleton]
        omega
      · simpa [List.take_append_of_le_length hk] using hhl
      · simp only [List.drop_append_of_le_length hk, hrun]
      · intro hmp
        have := hcap hmp
        simp only [List.length_append, List.length_singleton]
        omega
    | next hl dg rest sub =>
      have hklt : k < sub.length := by
        have hne : sub.drop k ≠ [] := by
          rw [← hrun]
          simp
        have := List.drop_eq_nil_iff.not.mp hne
        omega
      refine ⟨⟨k + 1, by show k + 1 ≤ sub.length; omega, ?_, ?_⟩, ?_⟩
      · rw [List.take_add sub k 1, ← hrun, List.flatten_append, ← hhl]
        simp
      · rw [← List.drop_drop, ← hrun]
        simp
      · intro hmp
        have := hcap hmp
        simp only [List.length_cons] at this
        simp only []
        omega

/-! Evaluation lemmas for the three control paths of Sum. -/

theorem sync_sum_legacyfull (H : List Nat → List Nat) (d : Sync.Digest) (p : List Nat)
    (h1 : d.endWithNullChunk = true ∧ d.currentChunk.length = BlockSize) :
    Sync.Sum H d p = p ++ H ((d.hashList ++ H d.currentChunk) ++ H []) := by
  simp only [Sync.Sum, if_pos h1, md4sum]
  simp [h1.1]

theorem sync_sum_fastpath (H : List Nat → List Nat) (d : Sync.Digest) (p : List Nat)
    (h1 : ¬ (d.endWithNullChunk = true ∧ d.currentChunk.length = BlockSize))
    (h2 : d.hashList = []) :
    Sync.Sum H d p = H d.currentChunk := by
  simp only [Sync.Sum, if_neg h1, if_pos h2, md4sum, List.nil_append]

theorem sync_sum_tail (H : List Nat → List Nat) (d : Sync.Digest) (p : List Nat)
    (h1 : ¬ (d.endWithNullChunk = true ∧ d.currentChunk.length = BlockSize))
    (h2 : d.hashList ≠ []) :
    Sync.Sum H d p =
      p ++ H (if d.endWithNullChunk = true ∨ d.currentChunk ≠ []
        then d.hashList ++ H d.currentChunk else d.hashList) := by
  simp only [Sync.Sum, if_neg h1, if_neg h2, md4sum]

theorem conc_sum_legacyfull (H : List Nat → List Nat) (d : Conc.Digest) (p : List Nat)
    (h1 : d.endWithNullChunk = true ∧ d.currentChunk.length = BlockSize) :
    Conc.Sum H d p =
      p ++ H (((d.submitted.map H).flatten ++ H d.currentChunk) ++ H []) := by
  simp only [Conc.Sum, if_pos h1, md4sum]
  simp [h1.1]

theorem conc_sum_fastpath (H : List Nat → List Nat) (d : Conc.Digest) (p : List Nat)
    (h1 : ¬ (d.endWithNullChunk = true ∧ d.currentChunk.length = BlockSize))
    (h2 : (d.submitted.map H).flatten = []) :
    Conc.Sum H d p = H d.currentChunk := by
  simp only [Conc.Sum, if_neg h1, if_pos h2, md4sum, List.nil_append]

theorem conc_sum_tail (H : List Nat → List Nat) (d : Conc.Digest) (p : List Nat)
    (h1 : ¬ (d.endWithNullChunk = true ∧ d.currentChunk.length = BlockSize))
    (h2 : (d.submitted.map H).flatten ≠ []) :
    Conc.Sum H d p =
      p ++ H (if d.endWithNullChunk = true ∨ d.currentChunk ≠ []
        then (d.submitted.map H).flatten ++ H d.currentChunk
        else (d.submitted.map H).flatten) := by
  simp only [Conc.Sum, if_neg h1, if_neg h2, md4sum]

/-! Refinement between the two variants. -/

theorem write_sim (H : List Nat → List Nat) (d : Conc.Digest) (p : List Nat) :
    Sync.Write H (toSync H d) p = toSync H (Conc.Write d p) := by
  simp only [toSync, Sync.Write, Conc.Write, writeAux_sim]

theorem writes_sim (H : List Nat → List Nat) (ps : List (List Nat)) :
    ∀ d : Conc.Digest, Sync.Writes H (toSync H d) ps = toSync H (Conc.Writes d ps) := by
  induction ps with
  | nil => intro d; rfl
  | cons p ps IH =>
    intro d
    show Sync.Writes H (Sync.Write H (toSync H d) p) ps = toSync H (Conc.Writes (Conc.Write d p) ps)
    rw [write_sim, IH]

theorem sum_sim (H : List Nat → List Nat) (d : Conc.Digest) (p : List Nat) :
    Sync.Sum H (toSync H d) p = Conc.Sum H d p := rfl

/-! Write-level consequences of the loop lemmas. -/

theorem conc_write_append (d : Conc.Digest) (a b : List Nat) :
    Conc.Write (Conc.Write d a) b = Conc.Write d (a ++ b) := by
  simp only [Conc.Write, conc_writeAux_append]

theorem conc_writes_flatten (ps : List (List Nat)) :
    ∀ d : Conc.Digest, Conc.Writes d ps = Conc.Write d ps.flatten := by
  induction ps with
  | nil =>
    intro d
    show d = Conc.Write d []
    simp [Conc.Write, conc_writeAux_nil]
  | cons p ps IH =>
    intro d
    show Conc.Writes (Conc.Write d p) ps = Conc.Write d ((p :: ps).flatten)
    rw [IH, conc_write_append, List.flatten_cons]

/-- Writing at most BlockSize bytes into a fresh synchronous engine leaves
them pending in the chunk buffer. -/
theorem sync_write_small (H : List Nat → List Nat) (m : Bool) (p : List Nat)
    (h : p.length ≤ BlockSize) :
    Sync.Write H (Sync.New m) p = ⟨p, [], m⟩ := by
  simp only [Sync.New, Sync.Reset, Sync.Write, sync_writeAux_small H p [] h]

/-- Writing at most BlockSize bytes into a fresh concurrent engine leaves
them pending in the chunk buffer; nothing is submitted. -/
theorem conc_write_small (m : Bool) (p : List Nat) (h : p.length ≤ BlockSize) :
    Conc.Write (Conc.New m) p = ⟨p, [], m⟩ := by
  simp only [Conc.New, Conc.Reset, Conc.Write, conc_writeAux_small p [] h]

/-! Claim theorems. -/

/-- C1: for an input of exactly one full chunk (BlockSize bytes), the
legacy (red, endWithNullChunk=true) engine folds the chunk digest plus the
digest of an empty trailing chunk and returns digest(digest(chunk) ++
digest(empty)), while the current (blue) engine returns digest(chunk)
directly with no two-level folding; the two results differ whenever the
block digest separates those two inputs, as MD4 does on the recorded test
vectors. -/
theorem c1_one_full_chunk_legacy_vs_current (H : List Nat → List Nat) (chunk : List Nat)
    (hlen : chunk.length = BlockSize)
    (hne : H (H chunk ++ H []) ≠ H chunk) :
    Sync.Sum H (Sync.Write H (Sync.New true) chunk) [] = H (H chunk ++ H []) ∧
    Sync.Sum H (Sync.Write H (Sync.New false) chunk) [] = H chunk ∧
    Conc.Sum H (Conc.Write (Conc.New true) chunk) [] = H (H chunk ++ H []) ∧
    Conc.Sum H (Conc.Write (Conc.New false) chunk) [] = H chunk ∧
    Sync.Sum H (Sync.Write H (Sync.New true) chunk) [] ≠
      Sync.Sum H (Sync.Write H (Sync.New false) chunk) [] ∧
    Conc.Sum H (Conc.Write (Conc.New true) chunk) [] ≠
      Conc.Sum H (Conc.Write (Conc.New false) chunk) [] := by
  have hble : chunk.length ≤ BlockSize := Nat.le_of_eq hlen
  have ht : Sync.Write H (Sync.New true) chunk = ⟨chunk, [], true⟩ :=
    sync_write_small H true chunk hble
  have hf : Sync.Write H (Sync.New false) chunk = ⟨chunk, [], false⟩ :=
    sync_write_small H false chunk hble
  have hct : Conc.Write (Conc.New true) chunk = ⟨chunk, [], true⟩ :=
    conc_write_small true chunk hble
  have hcf : Conc.Write (Conc.New false) chunk = ⟨chunk, [], false⟩ :=
    conc_write_small false chunk hble
  have e1 : Sync.Sum H (⟨chunk, [], true⟩ : Sync.Digest) [] = H (H chunk ++ H []) := by
    rw [sync_sum_legacyfull H _ _ ⟨rfl, hlen⟩]
    simp
  have e2 : Sync.Sum H (⟨chunk, [], false⟩ : Sync.Digest) [] = H chunk := by
    rw [sync_sum_fastpath H ⟨chunk, [], false⟩ [] (by simp) rfl]
  have e3 : Conc.Sum H (⟨chunk, [], true⟩ : Conc.Digest) [] = H (H chunk ++ H []) := by
    rw [conc_sum_legacyfull H _ _ ⟨rfl, hlen⟩]
    simp
  have e4 : Conc.Sum H (⟨chunk, [], false⟩ : Conc.Digest) [] = H chunk := by
    rw [conc_sum_fastpath H ⟨chunk, [], false⟩ [] (by simp) rfl]
  rw [ht, hf, hct, hcf, e1, e2, e3, e4]
  exact ⟨rfl, rfl, rfl, rfl, hne, hne⟩

/-- Witness for C1 at a concrete full chunk and a concrete block digest. -/
theorem c1_one_full_chunk_legacy_vs_current_witness :
    (List.replicate BlockSize 0).length = BlockSize ∧
    lenHash (lenHash (List.replicate BlockSize 0) ++ lenHash []) ≠
      lenHash (List.replicate BlockSize 0) ∧
    Sync.Sum lenHash (Sync.Write lenHash (Sync.New true) (List.replicate BlockSize 0)) [] ≠
      Sync.Sum lenHash (Sync.Write lenHash (Sync.New false) (List.replicate BlockSize 0)) [] := by
  have h1 : (List.replicate BlockSize 0).length = BlockSize := by simp
  have h2 : lenHash (lenHash (List.replicate BlockSize 0) ++ lenHash []) ≠
      lenHash (List.replicate BlockSize 0) := by
    have hr : (List.replicate BlockSize 0).length = BlockSize := by simp
    simp only [lenHash, hr, List.length_append, List.length_cons, List.length_nil]
    decide
  exact ⟨h1, h2,
    (c1_one_full_chunk_legacy_vs_current lenHash (List.replicate BlockSize 0) h1 h2).2.2.2.2.1⟩

/-- C3: an input strictly shorter than one chunk is digested directly,
with no two-level folding, in either boundary mode and in both variants;
in particular the empty input yields the block digest of an empty buffer. -/
theorem c3_short_input_direct_digest (H : List Nat → List Nat) (m : Bool) (input : List Nat)
    (hshort : input.length < BlockSize) :
    Sync.Sum H (Sync.Write H (Sync.New m) input) [] = H input ∧
    Conc.Sum H (Conc.Write (Conc.New m) input) [] = H input := by
  have hble : input.length ≤ BlockSize := Nat.le_of_lt hshort
  rw [sync_write_small H m input hble, conc_write_small m input hble]
  constructor
  · rw [sync_sum_fastpath H ⟨input, [], m⟩ []
      (by rintro ⟨-, hx⟩; exact absurd hx (Nat.ne_of_lt hshort)) rfl]
  · rw [conc_sum_fastpath H ⟨input, [], m⟩ []
      (by rintro ⟨-, hx⟩; exact absurd hx (Nat.ne_of_lt hshort)) rfl]

/-- Witness for C3 at the empty input in legacy mode. -/
theorem c3_short_input_direct_digest_witness :
    ([] : List Nat).length < BlockSize ∧
    Sync.Sum lenHash (Sync.Write lenHash (Sync.New true) []) [] = lenHash [] := by
  have h : ([] : List Nat).length < BlockSize := by decide
  exact ⟨h, (c3_short_input_direct_digest lenHash true [] h).1⟩

/-- C5: Reset after arbitrary writes restores the fresh empty state and
preserves the boundary mode, so an engine that is written, Reset, and then
fed b sums exactly like a fresh engine fed only b, in both variants. -/
theorem c5_reset_restores_fresh_state (H : List Nat → List Nat) (m : Bool) (a b p : List Nat) :
    Sync.Sum H (Sync.Write H (Sync.Reset (Sync.Write H (Sync.New m) a)) b) p =
      Sync.Sum H (Sync.Write H (Sync.New m) b) p ∧
    Conc.Sum H (Conc.Write (Conc.Reset (Conc.Write (Conc.New m) a)) b) p =
      Conc.Sum H (Conc.Write (Conc.New m) b) p := by
  have h1 : Sync.Reset (Sync.Write H (Sync.New m) a) = Sync.New m := rfl
  have h2 : Conc.Reset (Conc.Write (Conc.New m) a) = Conc.New m := rfl
  rw [h1, h2]
  exact ⟨rfl, rfl⟩

/-- C6: Sum does not mutate the observable engine state.  Both Go methods
evaluate the finalization on a copy (synchronous variant) or on local
snapshots (concurrent variant), which the embedding records by returning
the receiver unchanged from SumStateful; hence repeated Sums agree - also
in the legacy full-chunk case, since the quantification over states is
unrestricted - and later Writes and Sums are as if no Sum had happened. -/
theorem c6_sum_is_nondestructive (H : List Nat → List Nat) (dS : Sync.Digest)
    (dC : Conc.Digest) (p q : List Nat) :
    (Sync.SumStateful H dS p).2 = dS ∧
    (Sync.SumStateful H (Sync.SumStateful H dS p).2 p).1 = (Sync.SumStateful H dS p).1 ∧
    Sync.Write H (Sync.SumStateful H dS p).2 q = Sync.Write H dS q ∧
    Sync.Sum H (Sync.SumStateful H dS p).2 q = Sync.Sum H dS q ∧
    (Conc.SumStateful H dC p).2 = dC ∧
    (Conc.SumStateful H (Conc.SumStateful H dC p).2 p).1 = (Conc.SumStateful H dC p).1 ∧
    Conc.Write (Conc.SumStateful H dC p).2 q = Conc.Write dC q ∧
    Conc.Sum H (Conc.SumStateful H dC p).2 q = Conc.Sum H dC q :=
  ⟨rfl, rfl, rfl, rfl, rfl, rfl, rfl, rfl⟩

/-- C7: the synchronous and the concurrent engine variants are
functionally equivalent: any sequence of Writes followed by Sum yields the
same bytes in both, for either boundary mode. -/
theorem c7_sync_conc_equivalent (H : List Nat → List Nat) (m : Bool)
    (ps : List (List Nat)) (p : List Nat) :
    Sync.Sum H (Sync.Writes H (Sync.New m) ps) p =
      Conc.Sum H (Conc.Writes (Conc.New m) ps) p := by
  rw [show Sync.New m = toSync H (Conc.New m) from rfl, writes_sim, sum_sim]

/-- C8: in every reachable hashLoop state the retired hash list is the
concatenation of the digests of a prefix of the submissions in submission
order and the in-flight queue is the remaining suffix; in particular once
everything in flight has been retired the assembled list is exactly the
concatenation of all chunk digests in submission order, regardless of the
completion order of individual digests (the step relation lets adds and
head-retirements interleave arbitrarily). -/
theorem c8_scheduler_retires_in_order (maxProcs : Nat) (s : SchedState)
    (h : SchedReach maxProcs s) :
    (∃ k, k ≤ s.submitted.length ∧ s.hashList = (s.submitted.take k).flatten ∧
      s.runningHashes = s.submitted.drop k) ∧
    (s.runningHashes = [] → s.hashList = s.submitted.flatten) := by
  obtain ⟨⟨k, hk, hhl, hrun⟩, -⟩ := sched_invariant maxProcs s h
  refine ⟨⟨k, hk, hhl, hrun⟩, ?_⟩
  intro hempty
  rw [hempty] at hrun
  have hge : s.submitted.length ≤ k := List.drop_eq_nil_iff.mp hrun.symm
  have hkk : k = s.submitted.length := le_antisymm hk hge
  rw [hhl, hkk, List.take_length]

/-- Witness for C8 at the initial scheduler state. -/
theorem c8_scheduler_retires_in_order_witness :
    SchedReach 1 ⟨[], [], []⟩ ∧
    ((∃ k, k ≤ (([] : List (List Nat))).length ∧
        ([] : List Nat) = (([] : List (List Nat)).take k).flatten ∧
        ([] : List (List Nat)) = ([] : List (List Nat)).drop k) ∧
      (([] : List (List Nat)) = [] → ([] : List Nat) = ([] : List (List Nat)).flatten)) :=
  ⟨SchedReach.init, c8_scheduler_retires_in_order 1 ⟨[], [], []⟩ SchedReach.init⟩

/-- C9: in every reachable hashLoop state the number of in-flight chunk
digests is at most 2 * GOMAXPROCS, and at the cap no addHash step exists:
a Write that completes a further chunk can only proceed after a nextHash
step retires the digest at the head of the in-flight queue. -/
theorem c9_inflight_cap (maxProcs : Nat) (s : SchedState) (hmp : 0 < maxProcs)
    (h : SchedReach maxProcs s) :
    s.runningHashes.length ≤ 2 * maxProcs ∧
    (s.runningHashes.length = 2 * maxProcs →
      ∀ (dg : List Nat) (s' : SchedState), ¬ SchedStep maxProcs s (.addHash dg) s') := by
  refine ⟨(sched_invariant maxProcs s h).2 hmp, ?_⟩
  intro hfull dg s' hstep
  cases hstep with
  | add _ _ hc => omega

/-- Witness for C9 at the initial scheduler state with maxProcs = 1. -/
theorem c9_inflight_cap_witness :
    0 < 1 ∧ SchedReach 1 ⟨[], [], []⟩ ∧
    (([] : List (List Nat)).length ≤ 2 * 1 ∧
      (([] : List (List Nat)).length = 2 * 1 →
        ∀ (dg : List Nat) (s' : SchedState), ¬ SchedStep 1 ⟨[], [], []⟩ (.addHash dg) s')) :=
  ⟨Nat.one_pos, SchedReach.init, c9_inflight_cap 1 ⟨[], [], []⟩ Nat.one_pos SchedReach.init⟩

/-- C4: after any sequence of Writes delivering n total bytes to a fresh
engine, the pending chunk buffer holds n mod BlockSize bytes - except that
a positive exact multiple of BlockSize leaves a full, not-yet-handed-off
chunk (the wait-one-byte rule) - and n equals BlockSize times the number
of handed-off chunks plus the pending buffer length. -/
theorem c4_write_accounting (m : Bool) (ps : List (List Nat)) :
    (Conc.Writes (Conc.New m) ps).currentChunk.length =
      pendingLen ((ps.map List.length).sum) ∧
    (ps.map List.length).sum =
      BlockSize * (Conc.Writes (Conc.New m) ps).submitted.length +
        (Conc.Writes (Conc.New m) ps).currentChunk.length := by
  rw [conc_writes_flatten]
  have hspec := conc_writeAux_spec (ps.flatten) [] [] (by simp)
  have hn : ps.flatten.length = (ps.map List.length).sum := by
    simp
  constructor
  · show (Conc.writeAux ps.flatten [] []).1.length = _
    rw [hspec.1]
    simp only [pendingLen, List.length_nil, Nat.zero_add, hn]
  · show (ps.map List.length).sum =
      BlockSize * (Conc.writeAux ps.flatten [] []).2.length +
        (Conc.writeAux ps.flatten [] []).1.length
    have h2 := hspec.2
    simp only [List.length_nil, List.length_flatten] at h2
    omega

/-- C10: Write is split-invariant: feeding any partition of a byte
sequence through successive Writes leaves a fresh engine (of either
variant) in the same state as one Write of the whole sequence, and every
subsequent Sum agrees. -/
theorem c10_write_split_invariant (H : List Nat → List Nat) (m : Bool)
    (ps : List (List Nat)) (p : List Nat) :
    Conc.Writes (Conc.New m) ps = Conc.Write (Conc.New m) ps.flatten ∧
    Sync.Writes H (Sync.New m) ps = Sync.Write H (Sync.New m) ps.flatten ∧
    Conc.Sum H (Conc.Writes (Conc.New m) ps) p =
      Conc.Sum H (Conc.Write (Conc.New m) ps.flatten) p ∧
    Sync.Sum H (Sync.Writes H (Sync.New m) ps) p =
      Sync.Sum H (Sync.Write H (Sync.New m) ps.flatten) p := by
  have hc := conc_writes_flatten ps (Conc.New m)
  have hs : Sync.Writes H (Sync.New m) ps = Sync.Write H (Sync.New m) ps.flatten := by
    rw [show Sync.New m = toSync H (Conc.New m) from rfl, writes_sim, hc, ← write_sim]
  exact ⟨hc, hs, by rw [hc], by rw [hs]⟩

/-- Counterexample to C2 as stated: the extra bytes passed to Sum are not
hashed into the final digest computation (Go's hash.Sum appends the digest
to them instead), and the single-chunk fast path ignores them entirely. -/
theorem c2_extra_bytes_counterexample :
    Sync.Sum lenHash ⟨[5], [9], false⟩ [7] ≠ lenHash (([9] ++ lenHash [5]) ++ [7]) ∧
    Sync.Sum lenHash ⟨[5], [], false⟩ [7] ≠ lenHash [5] ++ [7] ∧
    Sync.Sum lenHash ⟨[5], [], false⟩ [7] ≠ [7] ++ lenHash [5] ∧
    Conc.Sum lenHash ⟨[5], [[3]], false⟩ [7] ≠
      lenHash ((lenHash [3] ++ lenHash [5]) ++ [7]) ∧
    Conc.Sum lenHash ⟨[5], [], false⟩ [7] ≠ lenHash [5] ++ [7] := by
  decide

/-- C2 amended: in the multi-chunk path the extra bytes are prepended to
the final digest (Sum(extra) = extra ++ Sum(nil), Go hash.Sum
convention), not hashed into it; in the single-chunk fast path the extra
bytes are dropped (Sum(extra) = Sum(nil)). -/
theorem c2_extra_bytes_amended (H : List Nat → List Nat) (d : Sync.Digest)
    (e : Conc.Digest) (extra : List Nat) :
    Sync.Sum H d extra =
      (if d.hashList = [] ∧ ¬ (d.endWithNullChunk = true ∧ d.currentChunk.length = BlockSize)
       then Sync.Sum H d [] else extra ++ Sync.Sum H d []) ∧
    Conc.Sum H e extra =
      (if (e.submitted.map H).flatten = [] ∧
          ¬ (e.endWithNullChunk = true ∧ e.currentChunk.length = BlockSize)
       then Conc.Sum H e [] else extra ++ Conc.Sum H e []) := by
  constructor
  · by_cases h1 : d.endWithNullChunk = true ∧ d.currentChunk.length = BlockSize
    · rw [if_neg (by tauto), sync_sum_legacyfull H d extra h1, sync_sum_legacyfull H d [] h1]
      simp
    · by_cases h2 : d.hashList = []
      · rw [if_pos ⟨h2, h1⟩, sync_sum_fastpath H d extra h1 h2, sync_sum_fastpath H d [] h1 h2]
      · rw [if_neg (by tauto), sync_sum_tail H d extra h1 h2, sync_sum_tail H d [] h1 h2]
        simp
  · by_cases h1 : e.endWithNullChunk = true ∧ e.currentChunk.length = BlockSize
    · rw [if_neg (by tauto), conc_sum_legacyfull H e extra h1, conc_sum_legacyfull H e [] h1]
      simp
    · by_cases h2 : (e.submitted.map H).flatten = []
      · rw [if_pos ⟨h2, h1⟩, conc_sum_fastpath H e extra h1 h2, conc_sum_fastpath H e [] h1 h2]
      · rw [if_neg (by tauto), conc_sum_tail H e extra h1 h2, conc_sum_tail H e [] h1 h2]
        simp

end Ed2k
